import Mathlib

/-!
Verification of the Telethon TL code generator
(`telethon_generator/tl_generator.py`).

The generator consumes parsed TL definitions (`TLObject` values: a
32-bit constructor id, a name, a namespace, an `is_function` kind flag, a
declared `result` type string and an ordered argument list) and emits,
per definition, Python source for `__init__`, `to_dict`, `__bytes__`,
`from_reader` and — for functions — `on_response`, plus a registry file
`all_tlobjects.py` mapping constructor ids to generated classes.

This development shallowly embeds:
  * the wire formats the generator emits inline
    (`struct.pack('<i'/'<q', ...)`, `to_bytes(16/32, 'little',
    signed=True)`, the Bool markers, vector framing, the flags bitmask),
    as functions on `List Nat` byte streams;
  * the semantics of the generated `__bytes__` and `from_reader` code,
    as an encoder/decoder pair over a value model;
  * the generator-time control flow that decides fatal errors
    (`_write_self_assigns`), the registry construction
    (`generate_tlobjects`), the family-tag computation
    (`crc32(result.encode('ascii'))`) and the file-system operations of
    `generate_tlobjects` / `clean_tlobjects`.

Reader primitives (`read_int`, `read_long`, `read_large_int`,
`tgread_bool`) live outside the generator, in the runtime `tlobject.py`;
they are modelled from the spec's description of the fixed runtime
read/write API (little-endian signed integers of 4/8/16/32 bytes, and
the two 4-byte boolean markers).
-/

namespace TLGen

/-! ## Little-endian byte encoding of integers

`struct.pack('<i', v)` / `('<q', v)` and `v.to_bytes(w, 'little',
signed=True)` all produce the `w`-byte little-endian two's-complement
form of `v`; `struct.pack` and `to_bytes` raise when `v` is out of the
signed `w`-byte range, which the model reflects by only being applied
under range guards.  Bytes are `Nat`s below 256. -/

/-- `w` bytes of `n`, little-endian (truncating at `2^(8*w)`). -/
def bytesLE : Nat → Nat → List Nat
  | 0, _ => []
  | w + 1, n => n % 256 :: bytesLE w (n / 256)

/-- Read back a little-endian byte list as an unsigned number. -/
def fromBytesLE : List Nat → Nat
  | [] => 0
  | b :: bs => b + 256 * fromBytesLE bs

/-- Two's-complement reinterpretation of the signed integer `i`
as an unsigned `w`-byte value (what the pack/to_bytes calls emit). -/
def toTwos (w : Nat) (i : Int) : Nat :=
  (i % (2 ^ (8 * w) : Nat)).toNat

/-- Signed reinterpretation of an unsigned `w`-byte value
(what the runtime's signed readers produce). -/
def fromTwos (w : Nat) (n : Nat) : Int :=
  if 2 * n < 2 ^ (8 * w) then (n : Int) else (n : Int) - (2 ^ (8 * w) : Nat)

/-- `i` fits in `w` signed bytes: `-2^(8w-1) ≤ i < 2^(8w-1)`
(stated multiplied by 2 to avoid the exponent subtraction). -/
def signedRange (w : Nat) (i : Int) : Prop :=
  -((2 ^ (8 * w) : Nat) : Int) ≤ 2 * i ∧ 2 * i < ((2 ^ (8 * w) : Nat) : Int)

instance (w : Nat) (i : Int) : Decidable (signedRange w i) := by
  unfold signedRange; infer_instance

/-- The `w`-byte little-endian encoding of a signed integer. -/
def encSignedLE (w : Nat) (i : Int) : List Nat :=
  bytesLE w (toTwos w i)

/-- Evaluate `f` across a list left to right, propagating a raised
exception (the semantics of a Python list/join comprehension whose
body may raise). -/
def omap (f : α → Option β) : List α → Option (List β)
  | [] => some []
  | x :: xs => do
    let y ← f x
    let ys ← omap f xs
    some (y :: ys)

theorem bytesLE_length (w n : Nat) : (bytesLE w n).length = w := by
  induction w generalizing n with
  | zero => rfl
  | succ w ih => simp [bytesLE, ih]

theorem fromBytesLE_bytesLE (w n : Nat) :
    fromBytesLE (bytesLE w n) = n % 2 ^ (8 * w) := by
  induction w generalizing n with
  | zero => simp [bytesLE, fromBytesLE, Nat.mod_one]
  | succ w ih =>
    have h8 : 2 ^ (8 * (w + 1)) = 256 * 2 ^ (8 * w) := by
      rw [Nat.mul_add, pow_add]; ring
    rw [bytesLE, fromBytesLE, ih, h8, Nat.mod_mul]

theorem fromBytesLE_lt (w n : Nat) :
    fromBytesLE (bytesLE w n) < 2 ^ (8 * w) := by
  rw [fromBytesLE_bytesLE]
  exact Nat.mod_lt _ (Nat.pos_pow_of_pos _ (by norm_num))

/-- Two's-complement round trip: a signed value in range survives
encoding to `w` bytes and signed reinterpretation. -/
theorem fromTwos_toTwos (w : Nat) (i : Int) (h : signedRange w i) :
    fromTwos w (toTwos w i) = i := by
  obtain ⟨h1, h2⟩ := h
  have hpow : (0 : Int) < ((2 ^ (8 * w) : Nat) : Int) := by positivity
  unfold toTwos fromTwos
  rcases le_or_lt 0 i with hi | hi
  · have hmod : i % ((2 ^ (8 * w) : Nat) : Int) = i := by
      apply Int.emod_eq_of_lt hi; omega
    rw [hmod]; omega
  · have hmod : i % ((2 ^ (8 * w) : Nat) : Int) = i + ((2 ^ (8 * w) : Nat) : Int) := by
      have : (i + ((2 ^ (8 * w) : Nat) : Int)) % ((2 ^ (8 * w) : Nat) : Int)
          = i % ((2 ^ (8 * w) : Nat) : Int) := by
        simp [Int.add_mul_emod_self_left, Int.add_emod]
      rw [← this]
      apply Int.emod_eq_of_lt <;> omega
    rw [hmod]; omega

theorem toTwos_lt (w : Nat) (i : Int) : toTwos w i < 2 ^ (8 * w) := by
  unfold toTwos
  have hpow : (0 : Int) < ((2 ^ (8 * w) : Nat) : Int) := by positivity
  have := Int.emod_lt_of_pos i hpow
  omega

/-- Round trip for the signed little-endian encoding. -/
theorem decode_encSignedLE (w : Nat) (i : Int) (h : signedRange w i) :
    fromTwos w (fromBytesLE (encSignedLE w i)) = i := by
  unfold encSignedLE
  rw [fromBytesLE_bytesLE, Nat.mod_eq_of_lt (toTwos_lt w i)]
  exact fromTwos_toTwos w i h

/-! ## Data model

`PType` covers the primitive TL types whose wire format the generator
emits inline in `write_to_bytes` / `write_read_code`: `int`, `long`,
`int128`, `int256`, `Bool` and `true`.  (`string`, `bytes`, `double` and
`date` delegate to external runtime primitives whose byte format is not
part of this repository, and non-primitive type names recurse through
the registry; they are outside this model.) -/

/-- A modelled primitive TL argument type (`arg.type` strings). -/
inductive PType where
  | int
  | long
  | int128
  | int256
  | tBool
  | tTrue
  deriving DecidableEq, Repr

/-- One parsed TL argument (`TLArg` of the external parser), with the
attributes `tl_generator.py` consults. -/
structure Arg where
  name : String
  type : PType
  isVector : Bool := false
  useVectorId : Bool := false
  isFlag : Bool := false
  flagIndex : Nat := 0
  flagIndicator : Bool := false
  genericDefinition : Bool := false
  canBeInferred : Bool := false
  deriving DecidableEq, Repr

/-- One parsed TL definition (`TLObject` of the external parser). -/
structure TLDef where
  id : Nat
  name : String
  nspace : String := ""
  result : String := ""
  isFunction : Bool := false
  args : List Arg := []
  deriving DecidableEq, Repr

/-- Runtime values stored on a generated instance (the Python values a
legally constructed instance can hold for the modelled types):
`None`, an `int`, a `bool`, or a `list`. -/
inductive Val where
  | none
  | int (i : Int)
  | bool (b : Bool)
  | vec (xs : List Val)

/-- Python truthiness of a modelled value (`bool(v)`): `None`, `False`,
`0` and `[]` are falsy. -/
def pyTruthy : Val → Bool
  | .none => false
  | .int i => i != 0
  | .bool b => b
  | .vec xs => !xs.isEmpty

/-- The generator's absence test for optional flag fields,
`v is None or v is False` (identity, not truthiness: `0` and `[]`
are *present* under this test). -/
def isAbsent : Val → Bool
  | .none => true
  | .bool b => !b
  | _ => false

/-- A generated instance: its stored attribute values by field name. -/
structure Inst where
  fields : List (String × Val)

/-- Attribute lookup `instance.name` (first binding wins). -/
def Inst.get (inst : Inst) (name : String) : Val :=
  match inst.fields.find? (fun p => p.1 == name) with
  | some p => p.2
  | Option.none => Val.none

/-- `struct.pack` accepts Python `int` and `bool` (a subclass of `int`)
where an integer is required; anything else raises. -/
def Val.asInt : Val → Option Int
  | .int i => some i
  | .bool b => some (if b then 1 else 0)
  | _ => Option.none

/-! ## The generated `__bytes__` encoder

Shallow embedding of the code emitted by `_write_source_code` /
`write_to_bytes`: the semantics of running the generated `__bytes__`
method on an instance.  `Option.none` models a raised `struct.error` /
`OverflowError` / `TypeError`. -/

/-- `b'\x15\xc4\xb5\x1c'`: the vector constructor id `0x1cb5c415`,
little-endian. -/
def vectorIdBytes : List Nat := [0x15, 0xc4, 0xb5, 0x1c]

/-- `b'\xb5ur\x99'`: the boolTrue marker `0x997275b5`, little-endian. -/
def boolTrueBytes : List Nat := [0xb5, 0x75, 0x72, 0x99]

/-- `b'7\x97y\xbc'`: the boolFalse marker `0xbc799737`, little-endian. -/
def boolFalseBytes : List Nat := [0x37, 0x97, 0x79, 0xbc]

/-- Scalar encoding of one value at a primitive type: the non-vector,
non-flag-indicator arm of `write_to_bytes`.  `int`/`long` use
`struct.pack('<i'/'<q', v)`, `int128`/`int256` use
`v.to_bytes(16/32, 'little', signed=True)` (all raising when `v` is out
of range or not an integer), `Bool` writes one of the two 4-byte
markers by truthiness, and `true`-typed values write nothing. -/
def encScalar (t : PType) (v : Val) : Option (List Nat) :=
  match t with
  | .int => do
    let i ← v.asInt
    if signedRange 4 i then some (encSignedLE 4 i) else Option.none
  | .long => do
    let i ← v.asInt
    if signedRange 8 i then some (encSignedLE 8 i) else Option.none
  | .int128 => do
    let i ← v.asInt
    if signedRange 16 i then some (encSignedLE 16 i) else Option.none
  | .int256 => do
    let i ← v.asInt
    if signedRange 32 i then some (encSignedLE 32 i) else Option.none
  | .tBool => some (if pyTruthy v then boolTrueBytes else boolFalseBytes)
  | .tTrue => some []

/-- The 32-bit flags bitmask the generated code computes at the flag
indicator: the bitwise OR, over the definition's flag arguments, of
`0 if v is None or v is False else 1 << flag_index`. -/
def flagsValue (args : List Arg) (inst : Inst) : Nat :=
  args.foldr
    (fun f acc =>
      (if f.isFlag then
        (if isAbsent (inst.get f.name) then 0 else 2 ^ f.flagIndex)
       else 0) ||| acc)
    0

/-- The body of `write_to_bytes` once the flag-absence wrapper has been
passed: vector framing (optional vector id, 4-byte signed length,
then each element encoded as a scalar), the flag-indicator bitmask
(`b'\0\0\0\0'` when the definition has no flag arguments equals the
4-byte little-endian encoding of 0), or a scalar. -/
def encVector (t : PType) (useId : Bool) (v : Val) : Option (List Nat) :=
  match v with
  | .vec xs =>
    if xs.length < 2 ^ 31 then do
      let elems ← omap (encScalar t) xs
      some ((if useId then vectorIdBytes else []) ++
        encSignedLE 4 xs.length ++ elems.flatten)
    else Option.none
  | _ => Option.none

def encBody (args : List Arg) (inst : Inst) (a : Arg) (v : Val) :
    Option (List Nat) :=
  if a.isVector then encVector a.type a.useVectorId v
  else if a.flagIndicator then
    some (bytesLE 4 (flagsValue args inst))
  else encScalar a.type v

/-- The bytes one argument contributes to `__bytes__`
(`write_to_bytes`): generic definitions and `true`-typed flags write
nothing; a flag argument whose value `is None or is False` writes
nothing (and leaves its bit clear); otherwise the body is written. -/
def encodeArg (args : List Arg) (inst : Inst) (a : Arg) :
    Option (List Nat) :=
  if a.genericDefinition then some []
  else
    let v := inst.get a.name
    if a.isFlag then
      if a.type = PType.tTrue then some []
      else if isAbsent v then some []
      else encBody args inst a v
    else encBody args inst a v

/-- One co-indexed flag group passes the generated assertion when it has
at most one member or all members agree in truthiness. -/
def groupOk (g : List Arg) (inst : Inst) : Bool :=
  g.length ≤ 1 ||
  g.all (fun a => pyTruthy (inst.get a.name)) ||
  g.all (fun a => !pyTruthy (inst.get a.name))

/-- All assertions emitted at the top of `__bytes__` pass: for every
group of ≥ 2 flag arguments sharing a flag index, the members are
uniformly truthy or uniformly falsy. -/
def assertsOk (args : List Arg) (inst : Inst) : Bool :=
  (args.filter (·.isFlag)).all fun a =>
    groupOk ((args.filter (·.isFlag)).filter
      (fun b => b.flagIndex == a.flagIndex)) inst

/-- Errors the generated `__bytes__` can raise. -/
inductive EncErr where
  | assertionError
  | typeError
  deriving DecidableEq, Repr

/-- Running the generated `__bytes__` method: check the co-indexed flag
assertions, then emit the 4-byte little-endian constructor id followed
by every argument's bytes in declared order. -/
def encodeDef (d : TLDef) (inst : Inst) : Except EncErr (List Nat) :=
  if !assertsOk d.args inst then .error .assertionError
  else
    match omap (encodeArg d.args inst) d.args with
    | some parts => .ok (bytesLE 4 d.id ++ parts.flatten)
    | Option.none => .error .typeError

/-! ## The generated `from_reader` decoder

Shallow embedding of the code emitted by `write_read_code`, over the
runtime reader primitives.  `Option.none` models a raised exception
(buffer exhausted, unknown Bool marker, or `flags` referenced before
any flag-indicator assignment). -/

/-- Modelled from the spec: the runtime reader consumes `n` bytes from
the stream, raising when fewer remain. -/
def readBytes (n : Nat) (s : List Nat) : Option (List Nat × List Nat) :=
  if n ≤ s.length then some (s.take n, s.drop n) else Option.none

/-- Modelled from the spec: the runtime's signed little-endian integer
readers (`read_int` with `w = 4`, `read_long` with `w = 8`,
`read_large_int(bits=128/256)` with `w = 16/32`). -/
def readSigned (w : Nat) (s : List Nat) : Option (Int × List Nat) := do
  let (bs, r) ← readBytes w s
  some (fromTwos w (fromBytesLE bs), r)

/-- Modelled from the spec: the runtime `tgread_bool`, reading one of
the two 4-byte boolean markers and raising on anything else. -/
def tgread_bool (s : List Nat) : Option (Bool × List Nat) := do
  let (bs, r) ← readBytes 4 s
  if bs = boolTrueBytes then some (true, r)
  else if bs = boolFalseBytes then some (false, r)
  else Option.none

/-- Scalar read of one value at a primitive type: the non-vector,
non-flag arms of `write_read_code`.  A `true`-typed (non-flag) argument
reads nothing and is simply `True`. -/
def readScalar (t : PType) (s : List Nat) : Option (Val × List Nat) :=
  match t with
  | .int => (readSigned 4 s).map fun p => (Val.int p.1, p.2)
  | .long => (readSigned 8 s).map fun p => (Val.int p.1, p.2)
  | .int128 => (readSigned 16 s).map fun p => (Val.int p.1, p.2)
  | .int256 => (readSigned 32 s).map fun p => (Val.int p.1, p.2)
  | .tBool => (tgread_bool s).map fun p => (Val.bool p.1, p.2)
  | .tTrue => some (Val.bool true, s)

/-- `for _ in range(n): ...append(read element)`. -/
def readElems (t : PType) : Nat → List Nat → Option (List Val × List Nat)
  | 0, s => some ([], s)
  | n + 1, s => do
    let (v, s) ← readScalar t s
    let (vs, s) ← readElems t n s
    some (v :: vs, s)

/-- The vector-or-scalar body of `write_read_code`: a vector read
discards the 4-byte vector id when `use_vector_id` (the value is not
checked), reads a signed 4-byte count `n`, then reads
`max n 0` elements (`range` of a negative count is empty). -/
def readBody (a : Arg) (s : List Nat) : Option (Val × List Nat) :=
  if a.isVector then
    match (if a.useVectorId then (readSigned 4 s).map (·.2) else some s) with
    | Option.none => Option.none
    | some s1 =>
      match readSigned 4 s1 with
      | Option.none => Option.none
      | some (n, s2) =>
        match readElems a.type n.toNat s2 with
        | Option.none => Option.none
        | some (xs, s3) => some (Val.vec xs, s3)
  else readScalar a.type s

/-- State while the generated `from_reader` runs: the remaining stream,
the `flags` local variable (unassigned until a flag indicator is read;
referencing it before then is a `NameError`), and the argument values
collected so far for the final constructor call. -/
structure DecState where
  stream : List Nat
  flags : Option Nat
  fields : List (String × Val)

/-- Reading one argument in `from_reader` (`write_read_code`):
generic definitions read nothing and bind nothing; a `true`-typed flag
is `bool(flags & (1 << flag_index))`; any other flag argument is read
only when its bit is set and is `None` otherwise; a flag indicator
assigns `flags` (its 4 bytes reinterpreted unsigned, which agrees with
Python's signed `&` test for flag indices below 32); all other
arguments read their body.  The final `__init__` call stores each bound
value verbatim for the modelled (non-inferred, primitive-typed)
arguments, so the collected bindings are the decoded instance. -/
def decodeArgStep (st : DecState) (a : Arg) : Option DecState :=
  if a.genericDefinition then some st
  else if a.isFlag then
    match st.flags with
    | Option.none => Option.none
    | some fl =>
      if a.type = PType.tTrue then
        some { st with
          fields := st.fields ++ [(a.name, Val.bool (fl &&& 2 ^ a.flagIndex != 0))] }
      else if fl &&& 2 ^ a.flagIndex != 0 then
        match readBody a st.stream with
        | some (v, s') =>
          some { stream := s', flags := st.flags,
                 fields := st.fields ++ [(a.name, v)] }
        | Option.none => Option.none
      else
        some { st with fields := st.fields ++ [(a.name, Val.none)] }
  else if a.flagIndicator then
    match readBytes 4 st.stream with
    | some (bs, s') =>
      some { stream := s', flags := some (fromBytesLE bs), fields := st.fields }
    | Option.none => Option.none
  else
    match readBody a st.stream with
    | some (v, s') =>
      some { stream := s', flags := st.flags,
             fields := st.fields ++ [(a.name, v)] }
    | Option.none => Option.none

/-- Decoding a full object of definition `d` from a stream: the
registry dispatch (`tgread_object`, modelled from the spec) reads the
4-byte constructor id and requires it to be `d`'s, then the generated
`from_reader` reads every argument in declared order and calls the
constructor with the bound values. -/
def decodeDef (d : TLDef) (s : List Nat) : Option Inst := do
  let (cid, s) ← readBytes 4 s
  if fromBytesLE cid = d.id then
    let st ← d.args.foldlM decodeArgStep ⟨s, Option.none, []⟩
    some ⟨st.fields⟩
  else Option.none

/-! ## Round-trip lemmas for the primitives -/

theorem readBytes_exact (xs tail : List Nat) :
    readBytes xs.length (xs ++ tail) = some (xs, tail) := by
  unfold readBytes
  rw [if_pos (by simp)]
  simp

theorem readBytes_of_length (n : Nat) (xs tail : List Nat)
    (h : xs.length = n) :
    readBytes n (xs ++ tail) = some (xs, tail) := by
  subst h; exact readBytes_exact xs tail

theorem readSigned_enc (w : Nat) (i : Int) (h : signedRange w i)
    (tail : List Nat) :
    readSigned w (encSignedLE w i ++ tail) = some (i, tail) := by
  unfold readSigned
  have hl : (encSignedLE w i).length = w := bytesLE_length _ _
  rw [readBytes_of_length w (encSignedLE w i) tail hl]
  simp [Option.bind, decode_encSignedLE w i h]

theorem tgread_bool_marker (b : Bool) (tail : List Nat) :
    tgread_bool ((if b then boolTrueBytes else boolFalseBytes) ++ tail) =
      some (b, tail) := by
  have ht : readBytes 4 (boolTrueBytes ++ tail) = some (boolTrueBytes, tail) :=
    readBytes_exact boolTrueBytes tail
  have hf : readBytes 4 (boolFalseBytes ++ tail) = some (boolFalseBytes, tail) :=
    readBytes_exact boolFalseBytes tail
  cases b <;>
    simp_all [tgread_bool, Option.bind, boolTrueBytes, boolFalseBytes]

/-! ## Well-typed values

A legally constructed instance holds, at each argument, a value of the
argument's declared type (with optional flag arguments allowed to be
absent), with integers inside the ranges the pack/to_bytes calls
accept and vectors short enough for their 4-byte signed length. -/

/-- `v` is a legal present value at primitive type `t`. -/
def scalarTyped (t : PType) (v : Val) : Bool :=
  match t, v with
  | .int, .int i => decide (signedRange 4 i)
  | .long, .int i => decide (signedRange 8 i)
  | .int128, .int i => decide (signedRange 16 i)
  | .int256, .int i => decide (signedRange 32 i)
  | .tBool, .bool _ => true
  | .tTrue, .bool b => b
  | _, _ => false

/-- `v` is a legal present value for argument `a` (vector or scalar). -/
def valTyped (a : Arg) (v : Val) : Bool :=
  if a.isVector then
    match v with
    | .vec xs => decide (xs.length < 2 ^ 31) && xs.all (scalarTyped a.type)
    | _ => false
  else scalarTyped a.type v

/-- `v` is a legal stored value for argument `a`: optional flag
arguments may be absent (`None`, or Python `False`). -/
def argWT (a : Arg) (v : Val) : Bool :=
  if a.isFlag then isAbsent v || valTyped a v
  else valTyped a v

theorem readScalar_enc (t : PType) (v : Val) (hty : scalarTyped t v = true) :
    ∃ bs, encScalar t v = some bs ∧
      ∀ tail, readScalar t (bs ++ tail) = some (v, tail) := by
  cases t with
  | int =>
    match v, hty with
    | .int i, hty =>
      have hr : signedRange 4 i := of_decide_eq_true hty
      exact ⟨encSignedLE 4 i,
        by simp [encScalar, Val.asInt, Option.bind, hr],
        fun tail => by simp [readScalar, readSigned_enc 4 i hr tail]⟩
  | long =>
    match v, hty with
    | .int i, hty =>
      have hr : signedRange 8 i := of_decide_eq_true hty
      exact ⟨encSignedLE 8 i,
        by simp [encScalar, Val.asInt, Option.bind, hr],
        fun tail => by simp [readScalar, readSigned_enc 8 i hr tail]⟩
  | int128 =>
    match v, hty with
    | .int i, hty =>
      have hr : signedRange 16 i := of_decide_eq_true hty
      exact ⟨encSignedLE 16 i,
        by simp [encScalar, Val.asInt, Option.bind, hr],
        fun tail => by simp [readScalar, readSigned_enc 16 i hr tail]⟩
  | int256 =>
    match v, hty with
    | .int i, hty =>
      have hr : signedRange 32 i := of_decide_eq_true hty
      exact ⟨encSignedLE 32 i,
        by simp [encScalar, Val.asInt, Option.bind, hr],
        fun tail => by simp [readScalar, readSigned_enc 32 i hr tail]⟩
  | tBool =>
    match v, hty with
    | .bool b, _ =>
      exact ⟨if b then boolTrueBytes else boolFalseBytes,
        by simp [encScalar, pyTruthy],
        fun tail => by simp [readScalar, tgread_bool_marker b tail]⟩
  | tTrue =>
    match v, hty with
    | .bool true, _ =>
      exact ⟨[], by simp [encScalar], fun tail => by simp [readScalar]⟩

theorem readElems_enc (t : PType) (xs : List Val)
    (h : xs.all (scalarTyped t) = true) :
    ∃ bss : List (List Nat), omap (encScalar t) xs = some bss ∧
      ∀ tail, readElems t xs.length (bss.flatten ++ tail) = some (xs, tail) := by
  induction xs with
  | nil => exact ⟨[], rfl, fun tail => rfl⟩
  | cons x xs ih =>
    simp only [List.all_cons, Bool.and_eq_true] at h
    obtain ⟨bs, hbs, hread⟩ := readScalar_enc t x h.1
    obtain ⟨bss, hbss, hreads⟩ := ih h.2
    refine ⟨bs :: bss, by simp [omap, hbs, hbss], fun tail => ?_⟩
    rw [List.flatten_cons, List.append_assoc]
    simp [readElems, hread, hreads]

/-! ## The flags bitmask -/

/-- Some flag argument with index `i` has a present value. -/
def presentAt (args : List Arg) (inst : Inst) (i : Nat) : Bool :=
  args.any fun f => f.isFlag && f.flagIndex == i && !isAbsent (inst.get f.name)

theorem flagsValue_cons (a : Arg) (rest : List Arg) (inst : Inst) :
    flagsValue (a :: rest) inst =
      ((if a.isFlag then
          (if isAbsent (inst.get a.name) then 0 else 2 ^ a.flagIndex)
        else 0) ||| flagsValue rest inst) := rfl

theorem flagsValue_testBit (args : List Arg) (inst : Inst) (i : Nat) :
    (flagsValue args inst).testBit i = presentAt args inst i := by
  induction args with
  | nil => simp [flagsValue, presentAt, Nat.zero_testBit]
  | cons a rest ih =>
    rw [flagsValue_cons, Nat.testBit_lor, ih]
    simp only [presentAt, List.any_cons]
    by_cases hf : a.isFlag
    · by_cases ha : isAbsent (inst.get a.name)
      · simp [hf, ha, Nat.zero_testBit]
      · by_cases hix : a.flagIndex = i
        · simp [hf, ha, hix, Nat.testBit_two_pow_self]
        · simp [hf, ha, hix, Nat.testBit_two_pow_of_ne hix]
    · simp [hf, Nat.zero_testBit]

theorem flagsValue_lt (args : List Arg) (inst : Inst)
    (h : ∀ a ∈ args, a.isFlag = true → a.flagIndex < 32) :
    flagsValue args inst < 2 ^ 32 := by
  induction args with
  | nil => simp [flagsValue]
  | cons a rest ih =>
    have hrest : flagsValue rest inst < 2 ^ 32 :=
      ih fun x hx => h x (List.mem_cons_of_mem a hx)
    have hterm : (if a.isFlag then
        (if isAbsent (inst.get a.name) then 0 else 2 ^ a.flagIndex)
       else 0) < 2 ^ 32 := by
      by_cases hf : a.isFlag
      · by_cases ha : isAbsent (inst.get a.name)
        · simp [hf, ha]
        · simp only [hf, ha, if_true, Bool.false_eq_true, if_false]
          exact Nat.pow_lt_pow_right (by norm_num)
            (h a (List.mem_cons_self a rest) hf)
      · simp [hf]
    rw [flagsValue_cons]
    exact Nat.bitwise_lt hterm hrest

/-- The Python presence test the decoder performs,
`flags & (1 << i) != 0`, phrased on the unsigned mask. -/
theorem and_two_pow_ne_zero (n i : Nat) :
    (n &&& 2 ^ i != 0) = n.testBit i := by
  rw [Nat.and_two_pow]
  cases h : n.testBit i
  · simp
  · simp [Nat.pos_pow_of_pos i (by norm_num : 0 < 2)]

/-- If the definition has no flag arguments the mask is zero
(the generator then writes the literal `b'\0\0\0\0'`, which equals the
4-byte little-endian encoding of 0). -/
theorem flagsValue_of_no_flags (args : List Arg) (inst : Inst)
    (h : ∀ a ∈ args, a.isFlag = false) :
    flagsValue args inst = 0 := by
  induction args with
  | nil => rfl
  | cons a rest ih =>
    have ha := h a (List.mem_cons_self a rest)
    have hrest := ih fun x hx => h x (List.mem_cons_of_mem a hx)
    show (_ ||| flagsValue rest inst) = 0
    simp [ha, hrest]

/-! ## Body round trip -/

theorem readSigned_skip4 (c rest : List Nat) (hc : c.length = 4) :
    (readSigned 4 (c ++ rest)).map (·.2) = some rest := by
  unfold readSigned
  rw [readBytes_of_length 4 c rest hc]
  simp [Option.bind]

theorem readBody_enc (args : List Arg) (inst : Inst) (a : Arg) (v : Val)
    (hni : a.flagIndicator = false) (hty : valTyped a v = true) :
    ∃ bs, encBody args inst a v = some bs ∧
      ∀ tail, readBody a (bs ++ tail) = some (v, tail) := by
  unfold valTyped at hty
  by_cases hvec : a.isVector = true
  · rw [if_pos hvec] at hty
    match v, hty with
    | .vec xs, hty =>
      simp only [Bool.and_eq_true, decide_eq_true_eq] at hty
      obtain ⟨hlen, hall⟩ := hty
      obtain ⟨bss, hbss, hreads⟩ := readElems_enc a.type xs hall
      have hcount : signedRange 4 ((xs.length : Int)) := by
        unfold signedRange
        have h1 : (xs.length : Int) < 2 ^ 31 := by exact_mod_cast hlen
        have h0 : (0 : Int) ≤ (xs.length : Int) := Int.ofNat_nonneg _
        push_cast
        constructor <;> nlinarith [h1, h0]
      refine ⟨(if a.useVectorId then vectorIdBytes else []) ++
        encSignedLE 4 xs.length ++ bss.flatten, ?_, ?_⟩
      · rw [encBody, if_pos hvec, encVector, if_pos hlen, hbss]
        simp [Option.bind]
      · intro tail
        unfold readBody
        rw [if_pos hvec]
        have hrd : readSigned 4
            (encSignedLE 4 (xs.length : Int) ++ (bss.flatten ++ tail))
            = some ((xs.length : Int), bss.flatten ++ tail) :=
          readSigned_enc 4 _ hcount _
        by_cases hu : a.useVectorId = true
        · have hskip : (readSigned 4 (vectorIdBytes ++
              (encSignedLE 4 (xs.length : Int) ++ (bss.flatten ++ tail)))).map
                (·.2) =
              some (encSignedLE 4 (xs.length : Int) ++ (bss.flatten ++ tail)) :=
            readSigned_skip4 _ _ rfl
          simp only [hu, if_true, List.append_assoc]
          rw [hskip]
          simp only [hrd, Int.toNat_natCast, hreads tail]
        · simp only [hu, Bool.false_eq_true, if_false, List.append_assoc,
            List.nil_append]
          simp only [hrd, Int.toNat_natCast, hreads tail]
  · rw [if_neg hvec] at hty
    obtain ⟨bs, hbs, hread⟩ := readScalar_enc a.type v hty
    refine ⟨bs, ?_, ?_⟩
    · rw [encBody, if_neg hvec, if_neg (by simp [hni])]
      exact hbs
    · intro tail
      unfold readBody
      rw [if_neg hvec]
      exact hread tail

/-! ## Per-argument decode/encode agreement -/

/-- The value the decoder reproduces for one stored argument.  Present
values come back verbatim; an *absent* optional flag argument comes
back as `None` — except a `true`-typed flag, whose decoded value is
`bool(flags & bit)`, i.e. `False` rather than the `None` a fresh
instance stores.  This normalization is exactly where the literal
round-trip statement fails. -/
def normalizeVal (a : Arg) (v : Val) : Val :=
  if a.isFlag then
    if a.type = PType.tTrue then (if isAbsent v then Val.bool false else v)
    else (if isAbsent v then Val.none else v)
  else v

/-- The (name, value) bindings one argument contributes to the decoded
instance: none for generic definitions and the flag indicator (they are
not constructor parameters), the normalized stored value otherwise. -/
def decodedOf (a : Arg) (v : Val) : List (String × Val) :=
  if a.genericDefinition then []
  else if a.flagIndicator then []
  else [(a.name, normalizeVal a v)]

/-- Structural sanity of one parsed argument, as the external parser
produces them: a flag indicator (`flags:#`) is itself neither a flag,
a vector nor a generic definition, and a `true`-typed argument is not
a vector. -/
def argShapeOK (a : Arg) : Bool :=
  (!a.flagIndicator || (!a.isFlag && !a.isVector && !a.genericDefinition)) &&
  (!(a.type == PType.tTrue) || !a.isVector)

/-- Every flag argument is preceded by a flag indicator (the spec's
"the flag indicator always appears first among flag-dependent fields");
without this the generated `from_reader` would reference the `flags`
local before assignment. -/
def flagsGuarded : List Arg → Bool
  | [] => true
  | a :: rest => !a.isFlag && (a.flagIndicator || flagsGuarded rest)

/-- Co-indexed flag arguments agree in *presence* (`is None or is
False`), not merely in truthiness as the generated assertion checks.
Needed because a single mask bit gates every member of the group on
decode. -/
def coUniform (args : List Arg) (inst : Inst) : Prop :=
  ∀ a ∈ args, ∀ b ∈ args, a.isFlag = true → b.isFlag = true →
    a.flagIndex = b.flagIndex →
    isAbsent (inst.get a.name) = isAbsent (inst.get b.name)

instance (args : List Arg) (inst : Inst) : Decidable (coUniform args inst) := by
  unfold coUniform; infer_instance

theorem presentAt_of_uniform (args : List Arg) (inst : Inst) (a : Arg)
    (ha : a ∈ args) (hf : a.isFlag = true) (huni : coUniform args inst) :
    presentAt args inst a.flagIndex = !isAbsent (inst.get a.name) := by
  unfold presentAt
  cases habs : isAbsent (inst.get a.name)
  · simp only [Bool.not_false]
    exact List.any_eq_true.2 ⟨a, ha, by simp [hf, habs]⟩
  · simp only [Bool.not_true]
    rw [List.any_eq_false]
    intro x hx
    by_cases hxf : x.isFlag = true
    · by_cases hix : x.flagIndex = a.flagIndex
      · have := huni x hx a ha hxf hf hix
        simp [hxf, hix, this, habs]
      · simp [hix]
    · simp [hxf]

theorem decodeArgStep_enc (args : List Arg) (inst : Inst) (a : Arg)
    (ha : a ∈ args)
    (hshape : argShapeOK a = true)
    (hwt : a.genericDefinition = true ∨ a.flagIndicator = true ∨
      argWT a (inst.get a.name) = true)
    (hall32 : ∀ x ∈ args, x.isFlag = true → x.flagIndex < 32)
    (huni : coUniform args inst)
    (f : Option Nat)
    (hfl : a.isFlag = true → f = some (flagsValue args inst)) :
    ∃ bs, encodeArg args inst a = some bs ∧
      ∀ tail flds, decodeArgStep ⟨bs ++ tail, f, flds⟩ a =
        some ⟨tail,
          (if a.flagIndicator then some (flagsValue args inst) else f),
          flds ++ decodedOf a (inst.get a.name)⟩ := by
  simp only [argShapeOK, Bool.and_eq_true, Bool.or_eq_true, Bool.not_eq_true',
    Bool.not_eq_eq_eq_not, Bool.not_true, beq_eq_false_iff_ne, ne_eq]
    at hshape
  by_cases hg : a.genericDefinition = true
  · have hni : a.flagIndicator = false := by
      rcases hshape.1 with h | h
      · exact h
      · exact absurd hg (by simp [h.2])
    refine ⟨[], by unfold encodeArg; rw [if_pos hg], ?_⟩
    intro tail flds
    unfold decodeArgStep
    rw [if_pos hg]
    simp [hni, decodedOf, hg]
  · by_cases hflag : a.isFlag = true
    · -- flag argument
      have hni : a.flagIndicator = false := by
        rcases hshape.1 with h | h
        · exact h
        · exact absurd hflag (by simp [h.1.1])
      have hwt' : argWT a (inst.get a.name) = true :=
        (hwt.resolve_left hg).resolve_left (by simp [hni])
      have hfv := hfl hflag
      have hbit : ((flagsValue args inst) &&& 2 ^ a.flagIndex != 0)
          = !isAbsent (inst.get a.name) := by
        rw [and_two_pow_ne_zero, flagsValue_testBit,
          presentAt_of_uniform args inst a ha hflag huni]
      unfold argWT at hwt'
      rw [if_pos hflag] at hwt'
      by_cases htt : a.type = PType.tTrue
      · -- `true`-typed flag: nothing on the wire, value is the mask bit
        refine ⟨[], ?_, ?_⟩
        · unfold encodeArg
          rw [if_neg hg, if_pos hflag, if_pos htt]
        · intro tail flds
          unfold decodeArgStep
          rw [if_neg hg, if_pos hflag, hfv]
          simp only [htt, if_pos, List.nil_append, hbit]
          cases habs : isAbsent (inst.get a.name)
          · -- present: the stored value must be the literal True
            have hvt : a.isVector = false := by
              rcases hshape.2 with h | h
              · exact absurd htt h
              · exact h
            rw [habs, Bool.or_eq_true] at hwt'
            have : scalarTyped a.type (inst.get a.name) = true := by
              rcases hwt' with h | h
              · exact absurd h (by simp)
              · unfold valTyped at h
                rwa [hvt, if_neg (by simp)] at h
            rw [htt] at this
            have hv : inst.get a.name = Val.bool true := by
              cases hvv : inst.get a.name with
              | bool b =>
                rw [hvv] at this
                cases b
                · simp [scalarTyped] at this
                · rfl
              | none => rw [hvv] at this; simp [scalarTyped] at this
              | int i => rw [hvv] at this; simp [scalarTyped] at this
              | vec xs => rw [hvv] at this; simp [scalarTyped] at this
            simp [decodedOf, hg, hni, normalizeVal, hflag, htt, hv, habs,
              isAbsent]
          · simp [decodedOf, hg, hni, normalizeVal, hflag, htt, habs]
      · cases habs : isAbsent (inst.get a.name)
        · -- present optional argument: encoded body, bit set
          have hty : valTyped a (inst.get a.name) = true := by
            rw [Bool.or_eq_true, habs] at hwt'
            rcases hwt' with h | h
            · exact absurd h (by simp)
            · exact h
          obtain ⟨bs, hbs, hread⟩ :=
            readBody_enc args inst a (inst.get a.name) hni hty
          refine ⟨bs, ?_, ?_⟩
          · unfold encodeArg
            rw [if_neg hg, if_pos hflag, if_neg htt, if_neg (by simp [habs])]
            exact hbs
          · intro tail flds
            unfold decodeArgStep
            rw [if_neg hg, if_pos hflag, hfv]
            simp only [htt, if_neg, hbit, habs, Bool.not_false, if_pos,
              hread tail]
            simp [decodedOf, hg, hni, normalizeVal, hflag, htt, habs]
        · -- absent optional argument: nothing on the wire, bit clear
          refine ⟨[], ?_, ?_⟩
          · unfold encodeArg
            rw [if_neg hg, if_pos hflag, if_neg htt, if_pos (by simp [habs])]
          · intro tail flds
            unfold decodeArgStep
            rw [if_neg hg, if_pos hflag, hfv]
            simp only [htt, if_neg, hbit, habs, Bool.not_true, List.nil_append]
            simp [decodedOf, hg, hni, normalizeVal, hflag, htt, habs]
    · by_cases hind : a.flagIndicator = true
      · -- the flag indicator: the 4-byte mask
        have hvec : a.isVector = false := by
          rcases hshape.1 with h | h
          · exact absurd hind (by simp [h])
          · exact h.1.2
        refine ⟨bytesLE 4 (flagsValue args inst), ?_, ?_⟩
        · unfold encodeArg encBody
          rw [if_neg hg, if_neg hflag, if_neg (by simp [hvec]), if_pos hind]
        · intro tail flds
          unfold decodeArgStep
          rw [if_neg hg, if_neg hflag, if_pos hind,
            readBytes_of_length 4 _ tail (bytesLE_length 4 _)]
          have hmask : fromBytesLE (bytesLE 4 (flagsValue args inst))
              = flagsValue args inst := by
            rw [fromBytesLE_bytesLE]
            exact Nat.mod_eq_of_lt (flagsValue_lt args inst hall32)
          simp [hmask, hind, decodedOf, hg]
      · -- plain required argument
        have hwt' : argWT a (inst.get a.name) = true :=
          (hwt.resolve_left hg).resolve_left hind
        have hty : valTyped a (inst.get a.name) = true := by
          unfold argWT at hwt'
          rwa [if_neg hflag] at hwt'
        obtain ⟨bs, hbs, hread⟩ :=
          readBody_enc args inst a (inst.get a.name)
            (Bool.not_eq_true _ ▸ hind) hty
        refine ⟨bs, ?_, ?_⟩
        · unfold encodeArg
          rw [if_neg hg, if_neg hflag]
          exact hbs
        · intro tail flds
          unfold decodeArgStep
          rw [if_neg hg, if_neg hflag, if_neg hind, hread tail]
          simp [hind, decodedOf, hg, normalizeVal, hflag]

/-- All bindings the decoder collects for an argument list. -/
def decodedFields (args : List Arg) (inst : Inst) : List (String × Val) :=
  (args.map fun a => decodedOf a (inst.get a.name)).flatten

theorem decodeFold_enc (args : List Arg) (inst : Inst)
    (hshape : ∀ x ∈ args, argShapeOK x = true)
    (hwt : ∀ x ∈ args, x.genericDefinition = true ∨ x.flagIndicator = true ∨
      argWT x (inst.get x.name) = true)
    (hall32 : ∀ x ∈ args, x.isFlag = true → x.flagIndex < 32)
    (huni : coUniform args inst) :
    ∀ todo : List Arg, (∀ x ∈ todo, x ∈ args) →
    ∀ f : Option Nat,
      (f = some (flagsValue args inst) ∨
        (f = Option.none ∧ flagsGuarded todo = true)) →
    ∃ bss, omap (encodeArg args inst) todo = some bss ∧
      ∀ tail flds, ∃ f',
        todo.foldlM decodeArgStep ⟨bss.flatten ++ tail, f, flds⟩ =
          some ⟨tail, f', flds ++ decodedFields todo inst⟩ := by
  intro todo
  induction todo with
  | nil =>
    intro _ f _
    exact ⟨[], rfl, fun tail flds => ⟨f, by simp [decodedFields]⟩⟩
  | cons a rest ih =>
    intro hsub f hf
    have ha : a ∈ args := hsub a (List.mem_cons_self a rest)
    have hflarg : a.isFlag = true → f = some (flagsValue args inst) := by
      intro hflag
      rcases hf with h | h
      · exact h
      · exfalso
        have hgd := h.2
        unfold flagsGuarded at hgd
        simp [hflag] at hgd
    obtain ⟨bs, hbs, hstep⟩ :=
      decodeArgStep_enc args inst a ha (hshape a ha) (hwt a ha)
        hall32 huni f hflarg
    have hrest_inv : (if a.flagIndicator then some (flagsValue args inst)
          else f) = some (flagsValue args inst) ∨
        ((if a.flagIndicator then some (flagsValue args inst) else f)
            = Option.none ∧ flagsGuarded rest = true) := by
      by_cases hind : a.flagIndicator = true
      · left; simp [hind]
      · rcases hf with h | h
        · left; simp [hind, h]
        · right
          refine ⟨by simp [hind, h.1], ?_⟩
          have hgd := h.2
          unfold flagsGuarded at hgd
          simp only [Bool.and_eq_true, Bool.or_eq_true] at hgd
          rcases hgd.2 with h2 | h2
          · exact absurd h2 hind
          · exact h2
    obtain ⟨bss, hbss, hfold⟩ :=
      ih (fun x hx => hsub x (List.mem_cons_of_mem a hx)) _ hrest_inv
    refine ⟨bs :: bss, by simp [omap, hbs, hbss], ?_⟩
    intro tail flds
    obtain ⟨f2, hrest⟩ := hfold tail (flds ++ decodedOf a (inst.get a.name))
    refine ⟨f2, ?_⟩
    rw [List.foldlM_cons, List.flatten_cons, List.append_assoc,
      hstep (bss.flatten ++ tail) flds]
    show rest.foldlM decodeArgStep _ = _
    rw [hrest]
    simp [decodedFields, List.append_assoc]

/-! ## Claim C1: encode/decode round trip -/

/-- C1 (amended): for every definition over the primitive types whose
wire format the generator emits inline, and every legally constructed
instance (well-typed values, optional flag arguments possibly absent,
co-indexed flag groups uniformly present, flag indicator preceding all
flag arguments, flag indices below 32, no inferred arguments), running
the generated `from_reader` on the bytes produced by the generated
`__bytes__` yields an instance whose stored fields are, in declared
order, the original values *normalized at absent optional arguments*:
an absent (`None`) `true`-typed flag decodes to `False`, and any other
absent flag argument decodes to `None` (so a `Bool` flag stored as
`False` also comes back as `None`).  Present values are reproduced
verbatim, field for field.  The literal claim — decoded values equal
the original for *every* legal instance — fails exactly at those
absence normalizations (see the counterexample). -/
theorem c1_roundtrip_normalized (d : TLDef) (inst : Inst)
    (hid : d.id < 2 ^ 32)
    (_hinf : ∀ x ∈ d.args, x.canBeInferred = false)
    (hshape : ∀ x ∈ d.args, argShapeOK x = true)
    (hwt : ∀ x ∈ d.args, x.genericDefinition = true ∨
      x.flagIndicator = true ∨ argWT x (inst.get x.name) = true)
    (hall32 : ∀ x ∈ d.args, x.isFlag = true → x.flagIndex < 32)
    (hguard : flagsGuarded d.args = true)
    (huni : coUniform d.args inst)
    (hass : assertsOk d.args inst = true) :
    ∃ bs, encodeDef d inst = .ok bs ∧
      decodeDef d bs = some ⟨decodedFields d.args inst⟩ := by
  obtain ⟨bss, hbss, hfold⟩ :=
    decodeFold_enc d.args inst hshape hwt hall32 huni d.args
      (fun x hx => hx) Option.none (Or.inr ⟨rfl, hguard⟩)
  refine ⟨bytesLE 4 d.id ++ bss.flatten, ?_, ?_⟩
  · unfold encodeDef
    rw [hass]
    simp [hbss]
  · obtain ⟨f', hf'⟩ := hfold [] []
    rw [List.append_nil] at hf'
    unfold decodeDef
    rw [readBytes_of_length 4 _ _ (bytesLE_length 4 _)]
    have hcid : fromBytesLE (bytesLE 4 d.id) = d.id := by
      rw [fromBytesLE_bytesLE]; exact Nat.mod_eq_of_lt hid
    simp [hcid, hf']

/-- A definition with a flag indicator and one optional `true`-typed
flag argument (e.g. `t#7 flags:# x:flags.0?true = T;`). -/
def trueFlagDef : TLDef :=
  { id := 7, name := "t",
    args := [{ name := "flags", type := PType.int, flagIndicator := true },
             { name := "x", type := PType.tTrue, isFlag := true }] }

/-- C1 as literally stated is false: constructing `trueFlagDef` with
the optional `x` absent stores `None`, but decoding the encoded bytes
stores `bool(flags & 1) = False`, a different value. -/
theorem c1_counterexample :
    encodeDef trueFlagDef ⟨[]⟩ = .ok [7, 0, 0, 0, 0, 0, 0, 0] ∧
    decodeDef trueFlagDef [7, 0, 0, 0, 0, 0, 0, 0]
      = some ⟨[("x", Val.bool false)]⟩ ∧
    Inst.get ⟨[]⟩ "x" = Val.none ∧
    Val.bool false ≠ Val.none :=
  ⟨rfl, rfl, rfl, fun h => Val.noConfusion h⟩

/-- A concrete definition exercising the indicator, a required `int`,
an optional `long` and a tagged vector of `int`. -/
def sampleDef : TLDef :=
  { id := 0x11223344, name := "sample",
    args := [{ name := "flags", type := PType.int, flagIndicator := true },
             { name := "a", type := PType.int },
             { name := "b", type := PType.long, isFlag := true,
               flagIndex := 1 },
             { name := "v", type := PType.int, isVector := true,
               useVectorId := true }] }

/-- A legally constructed instance of `sampleDef`. -/
def sampleInst : Inst :=
  ⟨[("a", Val.int 5), ("b", Val.int (-7)),
    ("v", Val.vec [Val.int 1, Val.int 2])]⟩

theorem c1_roundtrip_witness :
    ∃ bs, encodeDef sampleDef sampleInst = .ok bs ∧
      decodeDef sampleDef bs
        = some ⟨decodedFields sampleDef.args sampleInst⟩ :=
  c1_roundtrip_normalized sampleDef sampleInst (by decide) (by decide)
    (by decide) (by decide) (by decide) (by decide) (by decide) (by decide)

/-! ## Claim C6: wire framing of the constructor id and the bitmask -/

/-- The bitmask described field-by-field: the bitwise OR of
`1 << flag_index` over exactly the flag arguments whose value is
present. -/
def flagsSpecOr (args : List Arg) (inst : Inst) : Nat :=
  (args.filter fun a => a.isFlag && !isAbsent (inst.get a.name)).foldr
    (fun a acc => 2 ^ a.flagIndex ||| acc) 0

theorem flagsSpecOr_cons (a : Arg) (rest : List Arg) (inst : Inst) :
    flagsSpecOr (a :: rest) inst =
      if a.isFlag && !isAbsent (inst.get a.name) then
        2 ^ a.flagIndex ||| flagsSpecOr rest inst
      else flagsSpecOr rest inst := by
  unfold flagsSpecOr
  rw [List.filter_cons]
  by_cases h : (a.isFlag && !isAbsent (inst.get a.name)) = true
  · rw [if_pos h, if_pos h, List.foldr_cons]
  · rw [if_neg h, if_neg h]

theorem flagsValue_eq_or (args : List Arg) (inst : Inst) :
    flagsValue args inst = flagsSpecOr args inst := by
  induction args with
  | nil => rfl
  | cons a rest ih =>
    rw [flagsValue_cons, ih, flagsSpecOr_cons]
    by_cases hf : a.isFlag = true
    · by_cases habs : isAbsent (inst.get a.name) = true
      · simp [hf, habs]
      · simp [hf, habs]
    · simp [hf]

/-- C6: the generated `__bytes__` emits the definition's 4-byte
constructor id, little-endian, first; at the flag-indicator argument it
writes 4 little-endian bytes of the 32-bit mask equal to the bitwise OR
of `1 << flag_index` over exactly the flag-indexed arguments whose
value is present, and 0 when the definition has no flag-indexed
arguments. -/
theorem c6_encoding_framing (d : TLDef) (inst : Inst) (bs : List Nat)
    (hid : d.id < 2 ^ 32)
    (henc : encodeDef d inst = .ok bs) :
    (bs.take 4 = bytesLE 4 d.id ∧ fromBytesLE (bs.take 4) = d.id) ∧
    (∀ a ∈ d.args, a.flagIndicator = true → argShapeOK a = true →
      encodeArg d.args inst a
        = some (bytesLE 4 (flagsValue d.args inst))) ∧
    flagsValue d.args inst = flagsSpecOr d.args inst ∧
    ((∀ a ∈ d.args, a.isFlag = false) → flagsValue d.args inst = 0) := by
  refine ⟨?_, ?_, flagsValue_eq_or d.args inst, ?_⟩
  · unfold encodeDef at henc
    rcases hass : assertsOk d.args inst with _ | _
    · rw [hass] at henc; simp at henc
    · rw [hass] at henc
      rcases hparts : omap (encodeArg d.args inst) d.args with _ | parts
      · rw [hparts] at henc; simp at henc
      · rw [hparts] at henc
        simp only [Bool.not_true, Bool.false_eq_true, if_false] at henc
        have hbs : bs = bytesLE 4 d.id ++ parts.flatten := by
          cases henc; rfl
        subst hbs
        have htake := List.take_left (bytesLE 4 d.id) parts.flatten
        rw [bytesLE_length] at htake
        refine ⟨htake, ?_⟩
        rw [htake, fromBytesLE_bytesLE]
        exact Nat.mod_eq_of_lt hid
  · intro a _ hind hshape
    simp only [argShapeOK, Bool.and_eq_true, Bool.or_eq_true,
      Bool.not_eq_true', Bool.not_eq_eq_eq_not, Bool.not_true,
      beq_eq_false_iff_ne, ne_eq] at hshape
    have htriple : a.isFlag = false ∧ a.isVector = false ∧
        a.genericDefinition = false := by
      rcases hshape.1 with h | h
      · exact absurd hind (by simp [h])
      · exact ⟨h.1.1, h.1.2, h.2⟩
    obtain ⟨hflag, hvec, hgen⟩ := htriple
    unfold encodeArg encBody
    rw [if_neg (by simp [hgen]), if_neg (by simp [hflag]),
      if_neg (by simp [hvec]), if_pos hind]
  · intro hnone
    exact flagsValue_of_no_flags d.args inst hnone

theorem c6_encoding_framing_witness :
    (([0x44, 0x33, 0x22, 0x11, 2, 0, 0, 0, 5, 0, 0, 0,
        0xf9, 0xff, 0xff, 0xff, 0xff, 0xff, 0xff, 0xff,
        0x15, 0xc4, 0xb5, 0x1c, 2, 0, 0, 0,
        1, 0, 0, 0, 2, 0, 0, 0] : List Nat).take 4
          = bytesLE 4 sampleDef.id ∧
      fromBytesLE (([0x44, 0x33, 0x22, 0x11, 2, 0, 0, 0, 5, 0, 0, 0,
        0xf9, 0xff, 0xff, 0xff, 0xff, 0xff, 0xff, 0xff,
        0x15, 0xc4, 0xb5, 0x1c, 2, 0, 0, 0,
        1, 0, 0, 0, 2, 0, 0, 0] : List Nat).take 4) = sampleDef.id) ∧
    (∀ a ∈ sampleDef.args, a.flagIndicator = true → argShapeOK a = true →
      encodeArg sampleDef.args sampleInst a
        = some (bytesLE 4 (flagsValue sampleDef.args sampleInst))) ∧
    flagsValue sampleDef.args sampleInst
      = flagsSpecOr sampleDef.args sampleInst ∧
    ((∀ a ∈ sampleDef.args, a.isFlag = false) →
      flagsValue sampleDef.args sampleInst = 0) :=
  c6_encoding_framing sampleDef sampleInst _ (by decide) rfl

/-! ## Claim C7: co-indexed flag assertions -/

theorem encodeArg_ok (args : List Arg) (inst : Inst) (a : Arg)
    (hshape : argShapeOK a = true)
    (hwt : a.genericDefinition = true ∨ a.flagIndicator = true ∨
      argWT a (inst.get a.name) = true) :
    ∃ bs, encodeArg args inst a = some bs := by
  simp only [argShapeOK, Bool.and_eq_true, Bool.or_eq_true, Bool.not_eq_true',
    Bool.not_eq_eq_eq_not, Bool.not_true, beq_eq_false_iff_ne, ne_eq]
    at hshape
  by_cases hg : a.genericDefinition = true
  · exact ⟨[], by unfold encodeArg; rw [if_pos hg]⟩
  · by_cases hflag : a.isFlag = true
    · have hni : a.flagIndicator = false := by
        rcases hshape.1 with h | h
        · exact h
        · exact absurd hflag (by simp [h.1.1])
      have hwt' : argWT a (inst.get a.name) = true :=
        (hwt.resolve_left hg).resolve_left (by simp [hni])
      by_cases htt : a.type = PType.tTrue
      · exact ⟨[], by unfold encodeArg; rw [if_neg hg, if_pos hflag, if_pos htt]⟩
      · by_cases habs : isAbsent (inst.get a.name) = true
        · exact ⟨[], by
            unfold encodeArg
            rw [if_neg hg, if_pos hflag, if_neg htt, if_pos habs]⟩
        · have hty : valTyped a (inst.get a.name) = true := by
            unfold argWT at hwt'
            rw [if_pos hflag, Bool.or_eq_true] at hwt'
            rcases hwt' with h | h
            · exact absurd h habs
            · exact h
          obtain ⟨bs, hbs, _⟩ :=
            readBody_enc args inst a (inst.get a.name) hni hty
          exact ⟨bs, by
            unfold encodeArg
            rw [if_neg hg, if_pos hflag, if_neg htt, if_neg habs]
            exact hbs⟩
    · by_cases hind : a.flagIndicator = true
      · have hvec : a.isVector = false := by
          rcases hshape.1 with h | h
          · exact absurd hind (by simp [h])
          · exact h.1.2
        exact ⟨bytesLE 4 (flagsValue args inst), by
          unfold encodeArg encBody
          rw [if_neg hg, if_neg hflag, if_neg (by simp [hvec]), if_pos hind]⟩
      · have hwt' : argWT a (inst.get a.name) = true :=
          (hwt.resolve_left hg).resolve_left hind
        have hty : valTyped a (inst.get a.name) = true := by
          unfold argWT at hwt'
          rwa [if_neg hflag] at hwt'
        obtain ⟨bs, hbs, _⟩ :=
          readBody_enc args inst a (inst.get a.name)
            (Bool.not_eq_true _ ▸ hind) hty
        exact ⟨bs, by
          unfold encodeArg
          rw [if_neg hg, if_neg hflag]
          exact hbs⟩

theorem encodeArgs_ok (args : List Arg) (inst : Inst)
    (hshape : ∀ x ∈ args, argShapeOK x = true)
    (hwt : ∀ x ∈ args, x.genericDefinition = true ∨ x.flagIndicator = true ∨
      argWT x (inst.get x.name) = true) :
    ∀ todo : List Arg, (∀ x ∈ todo, x ∈ args) →
      ∃ bss, omap (encodeArg args inst) todo = some bss := by
  intro todo
  induction todo with
  | nil => exact fun _ => ⟨[], rfl⟩
  | cons a rest ih =>
    intro hsub
    have ha := hsub a (List.mem_cons_self a rest)
    obtain ⟨bs, hbs⟩ := encodeArg_ok args inst a (hshape a ha) (hwt a ha)
    obtain ⟨bss, hbss⟩ := ih fun x hx => hsub x (List.mem_cons_of_mem a hx)
    exact ⟨bs :: bss, by simp [omap, hbs, hbss]⟩

/-- Two distinct members make a list longer than one element. -/
theorem length_gt_one_of_two_mem {α : Type} {l : List α} {a b : α}
    (ha : a ∈ l) (hb : b ∈ l) (hne : a ≠ b) : ¬(l.length ≤ 1) := by
  intro hlen
  cases l with
  | nil => cases ha
  | cons x rest =>
    cases rest with
    | nil =>
      rw [List.mem_singleton] at ha hb
      exact hne (ha.trans hb.symm)
    | cons y t => simp at hlen

/-- In a list of flag arguments with pairwise distinct indices, each
index selects at most one element. -/
theorem filter_index_length (l : List Arg)
    (hl : l.Pairwise fun x y => x.flagIndex ≠ y.flagIndex) (i : Nat) :
    (l.filter fun b => b.flagIndex == i).length ≤ 1 := by
  induction l with
  | nil => simp
  | cons x rest ih =>
    rw [List.pairwise_cons] at hl
    rw [List.filter_cons]
    by_cases hx : (x.flagIndex == i) = true
    · rw [if_pos hx]
      have hrest : rest.filter (fun b => b.flagIndex == i) = [] := by
        rw [List.filter_eq_nil_iff]
        intro b hb hbi
        rw [beq_iff_eq] at hx hbi
        exact hl.1 b hb (hx.trans hbi.symm)
      simp [hrest]
    · rw [if_neg hx]
      exact ih hl.2

/-- C7: when a definition has two (or more) flag arguments sharing a
flag index, the generated `__bytes__` asserts that every such group is
uniformly truthy or uniformly falsy: encoding succeeds when the
assertion condition holds (given well-typed values), raises
`AssertionError` when two co-indexed flag arguments differ in
truthiness (in particular when exactly one is present/truthy), and for
a definition whose flag indices are pairwise distinct no group has two
members, so the encoder never raises the assertion for any instance. -/
theorem c7_coindexed_flags (d : TLDef) (inst : Inst)
    (hshape : ∀ x ∈ d.args, argShapeOK x = true)
    (hwt : ∀ x ∈ d.args, x.genericDefinition = true ∨ x.flagIndicator = true ∨
      argWT x (inst.get x.name) = true) :
    (assertsOk d.args inst = true → ∃ bs, encodeDef d inst = .ok bs) ∧
    (∀ a ∈ d.args, ∀ b ∈ d.args, a.isFlag = true → b.isFlag = true →
      a.flagIndex = b.flagIndex → a ≠ b →
      pyTruthy (inst.get a.name) = true → pyTruthy (inst.get b.name) = false →
      encodeDef d inst = .error .assertionError) ∧
    ((d.args.filter (·.isFlag)).Pairwise
        (fun x y => x.flagIndex ≠ y.flagIndex) →
      ∀ inst' : Inst, encodeDef d inst' ≠ .error .assertionError) := by
  refine ⟨?_, ?_, ?_⟩
  · intro hass
    obtain ⟨bss, hbss⟩ :=
      encodeArgs_ok d.args inst hshape hwt d.args (fun x hx => hx)
    refine ⟨bytesLE 4 d.id ++ bss.flatten, ?_⟩
    unfold encodeDef
    rw [hass]
    simp [hbss]
  · intro a hamem b hbmem haf hbf hix hne hat hbt
    have hfail : assertsOk d.args inst = false := by
      rw [← Bool.not_eq_true, assertsOk, List.all_eq_true]
      intro hall
      have haf' : a ∈ d.args.filter (·.isFlag) :=
        List.mem_filter.2 ⟨hamem, haf⟩
      have hbf' : b ∈ d.args.filter (·.isFlag) :=
        List.mem_filter.2 ⟨hbmem, hbf⟩
      have hga : a ∈ (d.args.filter (·.isFlag)).filter
          (fun x => x.flagIndex == a.flagIndex) :=
        List.mem_filter.2 ⟨haf', by simp⟩
      have hgb : b ∈ (d.args.filter (·.isFlag)).filter
          (fun x => x.flagIndex == a.flagIndex) :=
        List.mem_filter.2 ⟨hbf', by simp [hix]⟩
      have := hall a haf'
      unfold groupOk at this
      rw [Bool.or_eq_true, Bool.or_eq_true] at this
      rcases this with (h | h) | h
      · rw [decide_eq_true_eq] at h
        exact length_gt_one_of_two_mem hga hgb hne h
      · rw [List.all_eq_true] at h
        have := h b hgb
        rw [hbt] at this
        exact Bool.false_ne_true this
      · rw [List.all_eq_true] at h
        have := h a hga
        rw [hat] at this
        exact Bool.false_ne_true this
    unfold encodeDef
    rw [hfail]
    rfl
  · intro hdist inst'
    have hass : assertsOk d.args inst' = true := by
      rw [assertsOk, List.all_eq_true]
      intro a ha
      unfold groupOk
      rw [Bool.or_eq_true, Bool.or_eq_true]
      left; left
      rw [decide_eq_true_eq]
      exact filter_index_length _ hdist a.flagIndex
    unfold encodeDef
    rw [hass]
    cases omap (encodeArg d.args inst') d.args <;> simp

theorem c7_coindexed_flags_witness :
    (assertsOk sampleDef.args sampleInst = true →
      ∃ bs, encodeDef sampleDef sampleInst = .ok bs) ∧
    (∀ a ∈ sampleDef.args, ∀ b ∈ sampleDef.args, a.isFlag = true →
      b.isFlag = true → a.flagIndex = b.flagIndex → a ≠ b →
      pyTruthy (sampleInst.get a.name) = true →
      pyTruthy (sampleInst.get b.name) = false →
      encodeDef sampleDef sampleInst = .error .assertionError) ∧
    ((sampleDef.args.filter (·.isFlag)).Pairwise
        (fun x y => x.flagIndex ≠ y.flagIndex) →
      ∀ inst' : Inst, encodeDef sampleDef inst' ≠ .error .assertionError) :=
  c7_coindexed_flags sampleDef sampleInst (by decide) (by decide)

/-! ## Claim C10: empty flag vectors are present -/

/-- C10: a flag-indexed vector argument whose stored value is the empty
list is treated as present — its bit is set in the mask and the vector
framing (the optional vector id plus a count of 0) is written; a value
`is None or is False` (and only such a value) makes the encoder skip
the field, and when no other flag argument shares the index its bit
stays clear. -/
theorem c10_empty_flag_vector (args : List Arg) (inst : Inst) (a : Arg)
    (hmem : a ∈ args) (hflag : a.isFlag = true) (hvec : a.isVector = true)
    (huse : a.useVectorId = true) (hg : a.genericDefinition = false)
    (htt : a.type ≠ PType.tTrue)
    (hval : inst.get a.name = Val.vec []) :
    encodeArg args inst a = some (vectorIdBytes ++ encSignedLE 4 0) ∧
    (flagsValue args inst).testBit a.flagIndex = true ∧
    (∀ v : Val, isAbsent v = true ↔ (v = Val.none ∨ v = Val.bool false)) ∧
    (∀ inst' : Inst, isAbsent (inst'.get a.name) = true →
      encodeArg args inst' a = some [] ∧
      ((∀ b ∈ args, b.isFlag = true → b.flagIndex = a.flagIndex → b = a) →
        (flagsValue args inst').testBit a.flagIndex = false)) := by
  refine ⟨?_, ?_, ?_, ?_⟩
  · unfold encodeArg
    rw [if_neg (by simp [hg]), if_pos hflag, if_neg htt,
      if_neg (by simp [hval, isAbsent])]
    unfold encBody
    rw [if_pos hvec]
    unfold encVector
    rw [hval]
    simp [omap, huse]
  · rw [flagsValue_testBit]
    unfold presentAt
    exact List.any_eq_true.2 ⟨a, hmem, by simp [hflag, hval, isAbsent]⟩
  · intro v
    cases v with
    | none => simp [isAbsent]
    | int i => simp [isAbsent]
    | bool b => cases b <;> simp [isAbsent]
    | vec xs => simp [isAbsent]
  · intro inst' habs
    refine ⟨?_, ?_⟩
    · unfold encodeArg
      rw [if_neg (by simp [hg]), if_pos hflag, if_neg htt, if_pos habs]
    · intro honly
      rw [flagsValue_testBit]
      unfold presentAt
      rw [List.any_eq_false]
      intro x hx
      by_cases hxf : x.isFlag = true
      · by_cases hxi : x.flagIndex = a.flagIndex
        · have hxa : x = a := honly x hx hxf hxi
          subst hxa
          simp [habs]
        · simp [hxi]
      · simp [hxf]

/-- A definition holding a flag-indexed tagged vector of `int`. -/
def flagVecDef : TLDef :=
  { id := 9, name := "fv",
    args := [{ name := "flags", type := PType.int, flagIndicator := true },
             { name := "v", type := PType.int, isVector := true,
               useVectorId := true, isFlag := true, flagIndex := 3 }] }

/-- The flag-vector argument of `flagVecDef`. -/
def flagVecArg : Arg :=
  { name := "v", type := PType.int, isVector := true,
    useVectorId := true, isFlag := true, flagIndex := 3 }

theorem c10_empty_flag_vector_witness :
    encodeArg flagVecDef.args ⟨[("v", Val.vec [])]⟩ flagVecArg
      = some (vectorIdBytes ++ encSignedLE 4 0) ∧
    (flagsValue flagVecDef.args ⟨[("v", Val.vec [])]⟩).testBit
      flagVecArg.flagIndex = true ∧
    (∀ v : Val, isAbsent v = true ↔ (v = Val.none ∨ v = Val.bool false)) ∧
    (∀ inst' : Inst, isAbsent (inst'.get flagVecArg.name) = true →
      encodeArg flagVecDef.args inst' flagVecArg = some [] ∧
      ((∀ b ∈ flagVecDef.args, b.isFlag = true →
          b.flagIndex = flagVecArg.flagIndex → b = flagVecArg) →
        (flagsValue flagVecDef.args inst').testBit flagVecArg.flagIndex
          = false)) :=
  c10_empty_flag_vector flagVecDef.args ⟨[("v", Val.vec [])]⟩ flagVecArg
    (by decide) rfl rfl rfl rfl (by decide) rfl

/-! ## Claim C3: the family tag (`SUBCLASS_OF_ID`)

`_write_source_code` emits
`SUBCLASS_OF_ID = hex(crc32(tlobject.result.encode('ascii')))`.
`crc32` is zlib's CRC-32 (polynomial `0xEDB88320`, initial value and
final XOR `0xFFFFFFFF`), embedded here bit by bit. -/

/-- One shift-and-conditionally-XOR round of CRC-32. -/
def crc32Round (c : Nat) : Nat :=
  if c % 2 = 1 then (c / 2) ^^^ 0xEDB88320 else c / 2

/-- Fold one byte into the running CRC: XOR it in, then eight rounds. -/
def crc32Byte (c b : Nat) : Nat :=
  crc32Round^[8] (c ^^^ b)

/-- zlib's `crc32` of a byte sequence (with the default starting
value). -/
def crc32 (bs : List Nat) : Nat :=
  (bs.foldl crc32Byte 0xFFFFFFFF) ^^^ 0xFFFFFFFF

/-- `s.encode('ascii')`: the code points of an ASCII string are its
bytes (the call raises on non-ASCII input, so it is only meaningful
under an all-ASCII hypothesis). -/
def asciiBytes (s : String) : List Nat :=
  s.data.map Char.toNat

/-- The class-level family tag the generator writes for a definition. -/
def SUBCLASS_OF_ID (d : TLDef) : Nat :=
  crc32 (asciiBytes d.result)

set_option maxRecDepth 4000 in
/-- The embedded CRC-32 agrees with zlib on the standard check vector
`crc32(b"123456789") = 0xCBF43926`. -/
theorem crc32_check_vector : crc32 (asciiBytes "123456789") = 0xCBF43926 := by
  decide

/-- C3: the emitted family tag equals CRC-32 of the ASCII bytes of the
definition's declared result-type string, and two definitions with
identical result strings always receive the same family tag. -/
theorem c3_family_tag (d1 d2 : TLDef)
    (_hascii : ∀ c ∈ d1.result.data, c.toNat < 128)
    (heq : d1.result = d2.result) :
    SUBCLASS_OF_ID d1 = crc32 (asciiBytes d1.result) ∧
    SUBCLASS_OF_ID d1 = SUBCLASS_OF_ID d2 :=
  ⟨rfl, by unfold SUBCLASS_OF_ID; rw [heq]⟩

theorem c3_family_tag_witness :
    SUBCLASS_OF_ID { id := 1, name := "userEmpty", result := "User" }
        = crc32 (asciiBytes "User") ∧
    SUBCLASS_OF_ID { id := 1, name := "userEmpty", result := "User" }
      = SUBCLASS_OF_ID { id := 2, name := "user", result := "User" } :=
  c3_family_tag { id := 1, name := "userEmpty", result := "User" }
    { id := 2, name := "user", result := "User" } (by decide) rfl

/-! ## Claims C4 and C5: `_write_self_assigns` -/

/-- Exceptions `_write_self_assigns` can raise at generation time. -/
inductive GenError where
  /-- `ValueError('Cannot infer list of random ids for ', tlobject)` —
  carries the offending definition. -/
  | cannotInferList (defName : String)
  /-- `ValueError('Cannot infer a value for ', arg)` — carries the
  offending argument. -/
  | cannotInferValue (argName : String)
  /-- a bare `StopIteration` escaping the exhausted
  `next(a for a in args if a.name == 'id')` — carries nothing. -/
  | stopIteration
  deriving DecidableEq, Repr

/-- Whether a generation-time error's diagnostic names the offending
definition or field. -/
def errNamesOffender : GenError → Bool
  | .stopIteration => false
  | _ => true

/-- The assignment statement `_write_self_assigns` emits for one
constructor parameter. -/
inductive SelfAssign where
  /-- `self.x = x` (including the loose-input normalization cases,
  which are outside the modelled primitive types). -/
  | direct
  /-- `self.random_id = random_id if random_id is not None else
  int.from_bytes(os.urandom(w), 'big', signed=True)`. -/
  | inferScalar (w : Nat)
  /-- the same draw repeated once per element of the sibling `id`
  vector. -/
  | inferVector (w : Nat)
  deriving DecidableEq, Repr

/-- The generation-time control flow of `_write_self_assigns` for one
argument: inference applies only to arguments that `can_be_inferred`;
only the name `random_id` is supported (8 random bytes for `long`,
4 otherwise); a vector `random_id` requires the first sibling argument
named `id` (found by `next(...)`, which raises a bare `StopIteration`
when none exists) to itself be a vector, else
`ValueError('Cannot infer list of random ids for ', tlobject)`;
any other inferable name raises
`ValueError('Cannot infer a value for ', arg)`. -/
def writeSelfAssigns (tlobject : TLDef) (arg : Arg) (args : List Arg) :
    Except GenError SelfAssign :=
  if arg.canBeInferred then
    if arg.name = "random_id" then
      let w := if arg.type = PType.long then 8 else 4
      if arg.isVector then
        match args.find? (fun x => x.name == "id") with
        | Option.none => .error .stopIteration
        | some s =>
          if s.isVector then .ok (.inferVector w)
          else .error (.cannotInferList tlobject.name)
      else .ok (.inferScalar w)
    else .error (.cannotInferValue arg.name)
  else .ok .direct

/-- Big-endian unsigned value of a byte list. -/
def fromBytesBE (bs : List Nat) : Nat :=
  bs.foldl (fun acc b => 256 * acc + b) 0

/-- `int.from_bytes(bs, 'big', signed=True)`. -/
def intFromBytesBESigned (bs : List Nat) : Int :=
  fromTwos bs.length (fromBytesBE bs)

/-- The runtime semantics of the emitted scalar inference expression:
a non-`None` caller value is stored unchanged; otherwise `w` bytes are
drawn from the secure source and read as a signed big-endian integer. -/
def inferRandomId (w : Nat) (supplied : Val) (urandom : Nat → List Nat) :
    Val :=
  match supplied with
  | Val.none => Val.int (intFromBytesBESigned (urandom w))
  | v => v

theorem foldlBE_lt (bs : List Nat) (h : ∀ b ∈ bs, b < 256) :
    ∀ acc bound : Nat, acc < bound →
      bs.foldl (fun a b => 256 * a + b) acc < bound * 2 ^ (8 * bs.length) := by
  induction bs with
  | nil => intro acc bound hacc; simpa using hacc
  | cons b t ih =>
    intro acc bound hacc
    have hb : b < 256 := h b (List.mem_cons_self b t)
    have hstep : 256 * acc + b < 256 * bound := by omega
    have := ih (fun x hx => h x (List.mem_cons_of_mem b hx))
      (256 * acc + b) (256 * bound) hstep
    calc List.foldl (fun a b => 256 * a + b) (256 * acc + b) t
        < 256 * bound * 2 ^ (8 * t.length) := this
      _ = bound * 2 ^ (8 * (t.length + 1)) := by
          rw [Nat.mul_add, pow_add]; ring
      _ = bound * 2 ^ (8 * (b :: t).length) := by rw [List.length_cons]

theorem fromBytesBE_lt (bs : List Nat) (h : ∀ b ∈ bs, b < 256) :
    fromBytesBE bs < 2 ^ (8 * bs.length) := by
  have := foldlBE_lt bs h 0 1 (by norm_num)
  simpa [fromBytesBE] using this

/-- A signed big-endian read of `w` in-range bytes lands in the signed
`w`-byte range. -/
theorem intFromBytesBESigned_range (bs : List Nat) (h : ∀ b ∈ bs, b < 256) :
    -((2 ^ (8 * bs.length) : Nat) : Int) ≤ 2 * intFromBytesBESigned bs ∧
      2 * intFromBytesBESigned bs < ((2 ^ (8 * bs.length) : Nat) : Int) := by
  have hlt : fromBytesBE bs < 2 ^ (8 * bs.length) := fromBytesBE_lt bs h
  unfold intFromBytesBESigned fromTwos
  by_cases hc : 2 * fromBytesBE bs < 2 ^ (8 * bs.length)
  · rw [if_pos hc]
    constructor <;> omega
  · rw [if_neg hc]
    constructor <;> omega

/-- C4: in the generated constructor, an inferable argument named
`random_id` stores a non-`None` caller value unchanged (inference is
suppressed); when the caller passes `None` the value is synthesized
from `os.urandom` — 8 random bytes read as a signed 64-bit integer
when the declared type is `long`, 4 bytes as a signed 32-bit integer
otherwise — and the resulting integer lies in the corresponding signed
range. -/
theorem c4_random_id_inference (tlobject : TLDef) (arg : Arg)
    (args : List Arg) (urandom : Nat → List Nat)
    (hinf : arg.canBeInferred = true) (hname : arg.name = "random_id")
    (hvec : arg.isVector = false)
    (hlen : ∀ n, (urandom n).length = n)
    (hbyte : ∀ n, ∀ b ∈ urandom n, b < 256) :
    writeSelfAssigns tlobject arg args
      = .ok (.inferScalar (if arg.type = PType.long then 8 else 4)) ∧
    (∀ v : Val, v ≠ Val.none →
      inferRandomId (if arg.type = PType.long then 8 else 4) v urandom = v) ∧
    (arg.type = PType.long →
      ∃ i : Int, inferRandomId 8 Val.none urandom = Val.int i ∧
        -(2 ^ 63) ≤ i ∧ i < 2 ^ 63) ∧
    (arg.type ≠ PType.long →
      ∃ i : Int, inferRandomId 4 Val.none urandom = Val.int i ∧
        -(2 ^ 31) ≤ i ∧ i < 2 ^ 31) := by
  refine ⟨?_, ?_, ?_, ?_⟩
  · unfold writeSelfAssigns
    rw [if_pos hinf, if_pos hname, if_neg (by simp [hvec])]
  · intro v hv
    cases v with
    | none => exact absurd rfl hv
    | int i => rfl
    | bool b => rfl
    | vec xs => rfl
  · intro _
    refine ⟨intFromBytesBESigned (urandom 8), rfl, ?_⟩
    have := intFromBytesBESigned_range (urandom 8) (hbyte 8)
    rw [hlen 8] at this
    constructor <;> [omega; omega]
  · intro _
    refine ⟨intFromBytesBESigned (urandom 4), rfl, ?_⟩
    have := intFromBytesBESigned_range (urandom 4) (hbyte 4)
    rw [hlen 4] at this
    constructor <;> [omega; omega]

def randIdArg : Arg :=
  { name := "random_id", type := PType.long, canBeInferred := true }

def sendMsgDef : TLDef :=
  { id := 1, name := "sendMessage" }

/-- A deterministic stand-in for the randomness source. -/
def fixedRandom (n : Nat) : List Nat :=
  List.replicate n 0xab

theorem c4_random_id_inference_witness :
    (writeSelfAssigns sendMsgDef randIdArg []
      = .ok (.inferScalar (if randIdArg.type = PType.long then 8 else 4))) ∧
    (∀ v : Val, v ≠ Val.none →
      inferRandomId (if randIdArg.type = PType.long then 8 else 4) v
        fixedRandom = v) ∧
    (randIdArg.type = PType.long →
      ∃ i : Int, inferRandomId 8 Val.none fixedRandom = Val.int i ∧
        -(2 ^ 63) ≤ i ∧ i < 2 ^ 63) ∧
    (randIdArg.type ≠ PType.long →
      ∃ i : Int, inferRandomId 4 Val.none fixedRandom = Val.int i ∧
        -(2 ^ 31) ≤ i ∧ i < 2 ^ 31) :=
  c4_random_id_inference sendMsgDef randIdArg [] fixedRandom rfl rfl rfl
    (fun n => List.length_replicate n 0xab)
    (fun n b hb => by
      rw [List.eq_of_mem_replicate hb]; norm_num)

/-- C5 (amended): for a vector-typed inferable `random_id` argument,
generation fails at generation time in every malformed case — but the
diagnostic names the offender only when a sibling named `id` exists and
is not a vector (`ValueError` carrying the definition) or when an
inferable field has an unsupported name (`ValueError` carrying the
field).  When no sibling named `id` exists at all, the failure is the
bare `StopIteration` escaping `next(...)`, which names neither the
definition nor the field, contrary to the claim as stated. -/
theorem c5_inference_errors (tlobject : TLDef) (arg : Arg)
    (args : List Arg) (hinf : arg.canBeInferred = true)
    (hname : arg.name = "random_id") (hvec : arg.isVector = true) :
    (args.find? (fun x => x.name == "id") = Option.none →
      writeSelfAssigns tlobject arg args = .error .stopIteration ∧
      errNamesOffender .stopIteration = false) ∧
    (∀ s : Arg, args.find? (fun x => x.name == "id") = some s →
      s.isVector = false →
      writeSelfAssigns tlobject arg args
        = .error (.cannotInferList tlobject.name) ∧
      errNamesOffender (.cannotInferList tlobject.name) = true) ∧
    (∀ arg' : Arg, arg'.canBeInferred = true → arg'.name ≠ "random_id" →
      writeSelfAssigns tlobject arg' args
        = .error (.cannotInferValue arg'.name) ∧
      errNamesOffender (.cannotInferValue arg'.name) = true) := by
  refine ⟨?_, ?_, ?_⟩
  · intro hfind
    refine ⟨?_, rfl⟩
    unfold writeSelfAssigns
    rw [if_pos hinf, if_pos hname, if_pos hvec, hfind]
  · intro s hfind hsv
    refine ⟨?_, rfl⟩
    unfold writeSelfAssigns
    rw [if_pos hinf, if_pos hname, if_pos hvec, hfind]
    simp [hsv]
  · intro arg' hinf' hname'
    refine ⟨?_, rfl⟩
    unfold writeSelfAssigns
    rw [if_pos hinf', if_neg hname']

/-- A vector-typed inferable `random_id` argument. -/
def vecRandArg : Arg :=
  { name := "random_id", type := PType.long, isVector := true,
    canBeInferred := true }

/-- A definition holding `vecRandArg` with no sibling named `id`. -/
def noSiblingDef : TLDef :=
  { id := 2, name := "forwardMessages", args := [vecRandArg] }

/-- C5 as stated is false in the missing-sibling case: with no sibling
argument named `id`, generation fails with a bare `StopIteration`
whose diagnostic names neither the offending definition nor the
field. -/
theorem c5_counterexample :
    writeSelfAssigns noSiblingDef vecRandArg noSiblingDef.args
      = .error .stopIteration ∧
    errNamesOffender .stopIteration = false :=
  ⟨rfl, rfl⟩

theorem c5_inference_errors_witness :
    ((noSiblingDef.args.find? (fun x => x.name == "id") = Option.none →
      writeSelfAssigns noSiblingDef vecRandArg noSiblingDef.args
        = .error .stopIteration ∧
      errNamesOffender .stopIteration = false) ∧
    (∀ s : Arg, noSiblingDef.args.find? (fun x => x.name == "id") = some s →
      s.isVector = false →
      writeSelfAssigns noSiblingDef vecRandArg noSiblingDef.args
        = .error (.cannotInferList noSiblingDef.name) ∧
      errNamesOffender (.cannotInferList noSiblingDef.name) = true) ∧
    (∀ arg' : Arg, arg'.canBeInferred = true → arg'.name ≠ "random_id" →
      writeSelfAssigns noSiblingDef arg' noSiblingDef.args
        = .error (.cannotInferValue arg'.name) ∧
      errNamesOffender (.cannotInferValue arg'.name) = true)) :=
  c5_inference_errors noSiblingDef vecRandArg noSiblingDef.args rfl rfl rfl

/-! ## Claim C2: the registry (`all_tlobjects.py`) -/

/-- The `constructor_id: class` entries `generate_tlobjects` writes
into the `tlobjects` dictionary literal, in parse order — one per
definition, with no duplicate-id check anywhere. -/
def registryEntries (tlobjects : List TLDef) : List (Nat × TLDef) :=
  tlobjects.map fun t => (t.id, t)

/-- Building the registry never fails: `generate_tlobjects` simply
writes every entry. -/
def buildRegistry (tlobjects : List TLDef) :
    Except GenError (List (Nat × TLDef)) :=
  .ok (registryEntries tlobjects)

/-- Lookup in the emitted Python dict literal: a later binding of the
same key overwrites an earlier one. -/
def registryLookup (entries : List (Nat × TLDef)) (k : Nat) :
    Option TLDef :=
  (entries.reverse.find? fun p => p.1 == k).map (·.2)

/-- Two definitions sharing the constructor id `42`. -/
def dupA : TLDef := { id := 42, name := "a" }

/-- A second definition with the same constructor id as `dupA`. -/
def dupB : TLDef := { id := 42, name := "b" }

/-- C2 as stated is false: two definitions sharing a constructor id do
*not* abort generation — the registry is built successfully with both
entries, and the dict literal silently keeps the later one. -/
theorem c2_counterexample :
    buildRegistry [dupA, dupB] = .ok [(42, dupA), (42, dupB)] ∧
    registryLookup (registryEntries [dupA, dupB]) 42 = some dupB :=
  ⟨rfl, rfl⟩

theorem find_of_unique_key (l : List (Nat × TLDef)) (k : Nat) (v : TLDef)
    (hmem : (k, v) ∈ l) (huni : l.Pairwise fun x y => x.1 ≠ y.1) :
    l.find? (fun p => p.1 == k) = some (k, v) := by
  induction l with
  | nil => cases hmem
  | cons x rest ih =>
    rw [List.pairwise_cons] at huni
    rcases List.mem_cons.1 hmem with h | h
    · subst h
      rw [@List.find?_cons_of_pos _ (fun p => p.1 == k) (k, v) rest (by simp)]
    · have hxk : ¬(x.1 == k) = true := by
        rw [beq_iff_eq]
        intro hx
        exact huni.1 (k, v) h (by simpa using hx)
      rw [@List.find?_cons_of_neg _ (fun p => p.1 == k) x rest hxk]
      exact ih h huni.2

/-- C2 (amended): `generate_tlobjects` performs no duplicate-id check —
building the registry always succeeds, with exactly one written entry
per parsed definition; when two definitions share an id the emitted
dict literal keeps the later one.  Only for a valid schema (pairwise
distinct ids) does the registry map every definition's id back to that
definition. -/
theorem c2_registry_no_duplicate_check (tlobjects : List TLDef) :
    buildRegistry tlobjects = .ok (registryEntries tlobjects) ∧
    (registryEntries tlobjects).length = tlobjects.length ∧
    ((tlobjects.Pairwise fun x y => x.id ≠ y.id) →
      ∀ t ∈ tlobjects,
        registryLookup (registryEntries tlobjects) t.id = some t) := by
  refine ⟨rfl, by simp [registryEntries], ?_⟩
  intro huni t hmem
  unfold registryLookup registryEntries
  have hmem' : (t.id, t) ∈ (tlobjects.map fun t => (t.id, t)).reverse := by
    rw [List.mem_reverse]
    exact List.mem_map.2 ⟨t, hmem, rfl⟩
  have huni' : ((tlobjects.map fun t => (t.id, t)).reverse).Pairwise
      fun x y => x.1 ≠ y.1 := by
    rw [List.pairwise_reverse]
    rw [List.pairwise_map]
    exact huni.imp fun h => h.symm
  rw [find_of_unique_key _ t.id t hmem' huni']
  rfl

/-! ## Claim C8: response decoding for `Vector<int>` / `Vector<long>` -/

theorem readSigned_any (w : Nat) (c rest : List Nat) (hc : c.length = w) :
    readSigned w (c ++ rest) = some (fromTwos w (fromBytesLE c), rest) := by
  unfold readSigned
  rw [readBytes_of_length w c rest hc]
  rfl

theorem signedRange_of_lt (w n : Nat) (h : 2 * n < 2 ^ (8 * w)) :
    signedRange w (n : Int) := by
  unfold signedRange
  constructor
  · have h1 : (0 : Int) ≤ 2 * (n : Int) := by positivity
    have h2 : (0 : Int) ≤ ((2 ^ (8 * w) : Nat) : Int) := by positivity
    omega
  · exact_mod_cast h

theorem readElems_signed_enc (t : PType) (w : Nat)
    (hts : ∀ s, readScalar t s
      = (readSigned w s).map fun p => (Val.int p.1, p.2))
    (ms : List Int) (h : ∀ i ∈ ms, signedRange w i) (tail : List Nat) :
    readElems t ms.length ((ms.map (encSignedLE w)).flatten ++ tail)
      = some (ms.map Val.int, tail) := by
  induction ms with
  | nil => rfl
  | cons n rest ih =>
    have hn := h n (List.mem_cons_self n rest)
    have hread : readScalar t (encSignedLE w n ++
        ((rest.map (encSignedLE w)).flatten ++ tail))
        = some (Val.int n, (rest.map (encSignedLE w)).flatten ++ tail) := by
      rw [hts, readSigned_enc w n hn]
      rfl
    rw [List.map_cons, List.flatten_cons, List.append_assoc,
      List.length_cons, List.map_cons]
    unfold readElems
    rw [hread]
    simp [ih fun i hi => h i (List.mem_cons_of_mem n hi)]

/-- Python's `str.startswith(pre)`, on code points (kernel-reducible,
unlike `String.startsWith`). -/
def strStartsWith (s pre : String) : Bool :=
  (pre.data.map Char.toNat).isPrefixOf (s.data.map Char.toNat)

/-- The response-decoding code `write_request_result_code` emits for a
function definition, parameterized by the generic runtime readers
(modelled from the spec: `tgread_vector` reads a self-tagged sequence,
`tgread_object` dispatches one object through the registry by its
constructor tag).  A result of exactly `Vector<int>` or `Vector<long>`
reads and discards a 4-byte vector tag, reads the count (4 bytes for
`int`, 8 bytes — `reader.read_long()` — for `long`), then reads that
many raw primitives without consulting either generic reader; any
other `Vector<...>` result delegates to `tgread_vector`, and any
non-vector result to `tgread_object`. -/
def onResponse (result : String)
    (tgread_vector tgread_object : List Nat → Option (Val × List Nat))
    (s : List Nat) : Option (Val × List Nat) :=
  if strStartsWith result "Vector<" then
    if result = "Vector<int>" then
      match readSigned 4 s with
      | Option.none => Option.none
      | some (_, s1) =>
        match readSigned 4 s1 with
        | Option.none => Option.none
        | some (n, s2) =>
          match readElems PType.int n.toNat s2 with
          | Option.none => Option.none
          | some (xs, s3) => some (Val.vec xs, s3)
    else if result = "Vector<long>" then
      match readSigned 4 s with
      | Option.none => Option.none
      | some (_, s1) =>
        match readSigned 8 s1 with
        | Option.none => Option.none
        | some (n, s2) =>
          match readElems PType.long n.toNat s2 with
          | Option.none => Option.none
          | some (xs, s3) => some (Val.vec xs, s3)
    else tgread_vector s
  else tgread_object s

/-- C8: the generated response decoder of a function whose declared
result type is exactly `Vector<int>` or `Vector<long>` reads and
discards the 4-byte vector tag, reads the element count (as an 8-byte
integer for `Vector<long>`), then reads that many raw 32-bit
(respectively 64-bit) integers directly — the result is independent of
the generic registry-dispatch readers; any other vector result
delegates to the generic self-tagged-sequence reader, and a non-vector
result to the generic object reader. -/
theorem c8_vector_result_decode
    (gv go : List Nat → Option (Val × List Nat))
    (tag : List Nat) (htag : tag.length = 4) (tail : List Nat) :
    (∀ ns : List Int, (∀ i ∈ ns, signedRange 8 i) → ns.length < 2 ^ 31 →
      onResponse "Vector<long>" gv go
        (tag ++ encSignedLE 8 (ns.length) ++
          ((ns.map (encSignedLE 8)).flatten ++ tail))
        = some (Val.vec (ns.map Val.int), tail)) ∧
    (∀ ms : List Int, (∀ i ∈ ms, signedRange 4 i) → ms.length < 2 ^ 31 →
      onResponse "Vector<int>" gv go
        (tag ++ encSignedLE 4 (ms.length) ++
          ((ms.map (encSignedLE 4)).flatten ++ tail))
        = some (Val.vec (ms.map Val.int), tail)) ∧
    (∀ r : String, strStartsWith r "Vector<" = true → r ≠ "Vector<int>" →
      r ≠ "Vector<long>" → ∀ s, onResponse r gv go s = gv s) ∧
    (∀ r : String, strStartsWith r "Vector<" = false →
      ∀ s, onResponse r gv go s = go s) := by
  refine ⟨?_, ?_, ?_, ?_⟩
  · intro ns hns hlen
    have hcount : signedRange 8 ((ns.length : Int)) := by
      apply signedRange_of_lt
      norm_num at hlen ⊢
      omega
    unfold onResponse
    rw [if_pos (by decide), if_neg (by decide), if_pos rfl,
      List.append_assoc]
    simp only [readSigned_any 4 tag _ htag,
      readSigned_enc 8 _ hcount, Int.toNat_natCast,
      readElems_signed_enc PType.long 8 (fun s => rfl) ns hns tail]
  · intro ms hms hlen
    have hcount : signedRange 4 ((ms.length : Int)) := by
      apply signedRange_of_lt
      norm_num at hlen ⊢
      omega
    unfold onResponse
    rw [if_pos (by decide), if_pos rfl, List.append_assoc]
    simp only [readSigned_any 4 tag _ htag,
      readSigned_enc 4 _ hcount, Int.toNat_natCast,
      readElems_signed_enc PType.int 4 (fun s => rfl) ms hms tail]
  · intro r hstart h1 h2 s
    unfold onResponse
    rw [if_pos hstart, if_neg h1, if_neg h2]
  · intro r hstart s
    unfold onResponse
    rw [if_neg (by simp [hstart])]

/-- A generic reader stand-in that always fails, witnessing that the
fast paths never consult the generic readers. -/
def nullReader : List Nat → Option (Val × List Nat) :=
  fun _ => Option.none

theorem c8_vector_result_decode_witness :
    (∀ ns : List Int, (∀ i ∈ ns, signedRange 8 i) → ns.length < 2 ^ 31 →
      onResponse "Vector<long>" nullReader nullReader
        ([0, 0, 0, 0] ++ encSignedLE 8 (ns.length) ++
          ((ns.map (encSignedLE 8)).flatten ++ []))
        = some (Val.vec (ns.map Val.int), [])) ∧
    (∀ ms : List Int, (∀ i ∈ ms, signedRange 4 i) → ms.length < 2 ^ 31 →
      onResponse "Vector<int>" nullReader nullReader
        ([0, 0, 0, 0] ++ encSignedLE 4 (ms.length) ++
          ((ms.map (encSignedLE 4)).flatten ++ []))
        = some (Val.vec (ms.map Val.int), [])) ∧
    (∀ r : String, strStartsWith r "Vector<" = true → r ≠ "Vector<int>" →
      r ≠ "Vector<long>" →
      ∀ s, onResponse r nullReader nullReader s = nullReader s) ∧
    (∀ r : String, strStartsWith r "Vector<" = false →
      ∀ s, onResponse r nullReader nullReader s = nullReader s) :=
  c8_vector_result_decode nullReader nullReader [0, 0, 0, 0] rfl []

/-! ## Claim C9: file-system behavior of `generate_tlobjects` -/

/-- A file-system side effect the generator performs. -/
inductive FSOp where
  | makedirs (path : String)
  | rmtree (path : String)
  | removeFile (path : String)
  | writeFile (path : String)
  deriving DecidableEq, Repr

/-- Whether an operation deletes something. -/
def FSOp.isDelete : FSOp → Bool
  | .rmtree _ => true
  | .removeFile _ => true
  | _ => false

/-- `_rm_if_exists`: remove a tree or a file if it exists, given the
file-system state (`os.path.exists` / `os.path.isdir`). -/
def rmIfExistsOps (pathExists isDir : String → Bool) (name : String) :
    List FSOp :=
  if pathExists name then
    (if isDir name then [FSOp.rmtree name] else [FSOp.removeFile name])
  else []

/-- The operations `clean_tlobjects` performs: remove `functions`,
`types` and `all_tlobjects.py` when they exist. -/
def cleanTLObjectsOps (pathExists isDir : String → Bool) : List FSOp :=
  rmIfExistsOps pathExists isDir "functions" ++
  rmIfExistsOps pathExists isDir "types" ++
  rmIfExistsOps pathExists isDir "all_tlobjects.py"

/-- The namespaces of a definition list in first-appearance order
(`defaultdict` insertion order). -/
def namespacesOf (objs : List TLDef) : List String :=
  objs.foldl (fun acc t => if t.nspace ∈ acc then acc else acc ++ [t.nspace])
    []

/-- The operations `_write_init_py` performs for one output directory:
`os.makedirs(out_dir, exist_ok=True)` then one module file per
namespace (`ns.py`, or `__init__.py` for the root namespace). -/
def writeInitPyOps (outDir : String) (nss : List String) : List FSOp :=
  FSOp.makedirs outDir ::
    nss.map fun ns =>
      FSOp.writeFile
        (outDir ++ "/" ++ (if ns = "" then "__init__.py" else ns ++ ".py"))

/-- The file-system operations `generate_tlobjects` performs, in
order: ensure the two output directories exist, emit the function and
type namespace modules, and write `all_tlobjects.py`.  It never calls
`clean_tlobjects` or `_rm_if_exists`. -/
def generateTLObjectsOps (objs : List TLDef) : List FSOp :=
  [FSOp.makedirs "functions", FSOp.makedirs "types"] ++
  writeInitPyOps "functions" (namespacesOf (objs.filter (·.isFunction))) ++
  writeInitPyOps "types" (namespacesOf (objs.filter fun t => !t.isFunction)) ++
  [FSOp.writeFile "all_tlobjects.py"]

/-- C9 as stated is false: running full generation performs no deletion
at all — on a concrete input its operation trace is exactly directory
creation and file writes, so stale files of a previous schema version
survive in the output directory. -/
theorem c9_counterexample :
    (generateTLObjectsOps [sampleDef]).filter (fun op => op.isDelete) = []
      ∧
    generateTLObjectsOps [sampleDef] =
      [FSOp.makedirs "functions", FSOp.makedirs "types",
       FSOp.makedirs "functions",
       FSOp.makedirs "types", FSOp.writeFile "types/__init__.py",
       FSOp.writeFile "all_tlobjects.py"] := by
  constructor <;> rfl

theorem writeInitPyOps_no_delete (d : String) (nss : List String) :
    ∀ op ∈ writeInitPyOps d nss, op.isDelete = false := by
  intro op hop
  unfold writeInitPyOps at hop
  rcases List.mem_cons.1 hop with h | h
  · subst h; rfl
  · obtain ⟨ns, _, h⟩ := List.mem_map.1 h
    subst h; rfl

/-- C9 (amended): `generate_tlobjects` deletes nothing — every
operation it performs is a directory creation or a file write; the
deletion of the prior output (`functions`, `types`,
`all_tlobjects.py`) exists only in the separate `clean_tlobjects`
method, which `generate_tlobjects` does not invoke, so the caller must
clean explicitly to avoid stale files from a previous schema. -/
theorem c9_generate_does_not_clean (objs : List TLDef)
    (pathExists isDir : String → Bool) :
    (∀ op ∈ generateTLObjectsOps objs, op.isDelete = false) ∧
    (cleanTLObjectsOps pathExists isDir).all (fun op => op.isDelete)
      = true ∧
    (pathExists "functions" = true → pathExists "types" = true →
      pathExists "all_tlobjects.py" = true →
      isDir "functions" = true → isDir "types" = true →
      isDir "all_tlobjects.py" = false →
      cleanTLObjectsOps pathExists isDir =
        [FSOp.rmtree "functions", FSOp.rmtree "types",
         FSOp.removeFile "all_tlobjects.py"]) := by
  refine ⟨?_, ?_, ?_⟩
  · intro op hop
    unfold generateTLObjectsOps at hop
    rcases List.mem_append.1 hop with h | h
    · rcases List.mem_append.1 h with h | h
      · rcases List.mem_append.1 h with h | h
        · rcases List.mem_cons.1 h with h | h
          · subst h; rfl
          · rcases List.mem_cons.1 h with h | h
            · subst h; rfl
            · cases h
        · exact writeInitPyOps_no_delete _ _ op h
      · exact writeInitPyOps_no_delete _ _ op h
    · rcases List.mem_cons.1 h with h | h
      · subst h; rfl
      · cases h
  · unfold cleanTLObjectsOps rmIfExistsOps
    by_cases h1 : pathExists "functions" = true <;>
      by_cases h2 : pathExists "types" = true <;>
        by_cases h3 : pathExists "all_tlobjects.py" = true <;>
          by_cases h4 : isDir "functions" = true <;>
            by_cases h5 : isDir "types" = true <;>
              by_cases h6 : isDir "all_tlobjects.py" = true <;>
                simp [h1, h2, h3, h4, h5, h6, FSOp.isDelete]
  · intro h1 h2 h3 h4 h5 h6
    unfold cleanTLObjectsOps rmIfExistsOps
    rw [if_pos h1, if_pos h2, if_pos h3, if_pos h4, if_pos h5,
      if_neg (by simp [h6])]
    rfl

end TLGen
